import Mathlib

/-!
# Verification of the Kraken database core (`krakendb.hpp` / `krakendb.cpp`)

This file gives a shallow embedding, over `Nat` (with explicit `% 2^64` where
64-bit overflow matters) and `Int` (for the signed search cursors), of the
Kraken taxonomic-classification database core:

* the k-mer bit primitives `reverse_complement`, `canonical_representation`
  and the minimizer extraction `bin_key`;
* the sparse index (`KrakenDBIndex`), its accessor `at` (release and
  `TESTING` variants) and the index builder `make_index`;
* the database header parsing done by the `KrakenDB(char *)` constructor;
* the hybrid binary+linear `kmer_query` search, in its stateless form and in
  its amortised stateful form (`retry_on_failure`), including an explicit
  model of the three pointer parameters (`Option` = possibly-NULL pointer).

The pair array is modelled as a list of (key, value) records; the search
loops, which the C code drives with signed 64-bit cursors, are modelled with
`Int` cursors and a fuel argument that strictly dominates the window size
(each loop iteration shrinks the window, so the fuel never runs out on the
paths the C code takes).
-/

/-- XOR mask for minimizer bin keys (v2 indices); `0xe37e28c4271b5a2d`. -/
def INDEX2_XOR_MASK : Nat := 0xe37e28c4271b5a2d

/-- `2^64`, the modulus of `uint64_t` arithmetic. -/
def U64 : Nat := 2 ^ 64

/-- Reverse complement of a k-mer of `n` nucleotides packed in the low `2n`
bits (code from Jellyfish, `KrakenDB::reverse_complement`).  The five steps
swap adjacent 2-, 4-, 8-, 16- and 32-bit groups; then the word is
complemented (`(uint64_t)-1 - kmer`) and shifted down by `64 - 2n`.
Only the `kmer << 32` in the last swap can overflow 64 bits, hence the single
explicit `% U64`. -/
def reverse_complement (kmer : Nat) (n : Nat) : Nat :=
  let k1 := ((kmer >>> 2) &&& 0x3333333333333333) |||
            ((kmer &&& 0x3333333333333333) <<< 2)
  let k2 := ((k1 >>> 4) &&& 0x0F0F0F0F0F0F0F0F) |||
            ((k1 &&& 0x0F0F0F0F0F0F0F0F) <<< 4)
  let k3 := ((k2 >>> 8) &&& 0x00FF00FF00FF00FF) |||
            ((k2 &&& 0x00FF00FF00FF00FF) <<< 8)
  let k4 := ((k3 >>> 16) &&& 0x0000FFFF0000FFFF) |||
            ((k3 &&& 0x0000FFFF0000FFFF) <<< 16)
  let k5 := (k4 >>> 32) ||| ((k4 <<< 32) % U64)
  (U64 - 1 - k5) >>> (64 - 2 * n)

/-- `KrakenDB::canonical_representation`: the smaller (as an unsigned
integer) of a k-mer and its reverse complement. -/
def canonical_representation (kmer : Nat) (n : Nat) : Nat :=
  let revcom := reverse_complement kmer n
  if kmer < revcom then kmer else revcom

/-- The loop of `KrakenDB::bin_key`: `iters` iterations, each XORs the
canonical form of the low `2·nt` bits with the (already masked) XOR mask,
keeps the minimum seen so far in `acc`, and shifts the k-mer right by 2. -/
def binKeyGo (xm mask nt : Nat) : Nat → Nat → Nat → Nat
  | 0, _, acc => acc
  | iters + 1, kmer, acc =>
      let temp_bin_key := xm ^^^ canonical_representation (kmer &&& mask) nt
      binKeyGo xm mask nt iters (kmer >>> 2)
        (if temp_bin_key < acc then temp_bin_key else acc)

/-- `KrakenDB::bin_key(kmer, idx_nt)` with the XOR mask as a parameter
(the two-argument overload always passes `INDEX2_XOR_MASK`; the
one-argument overload passes `0` for a v1 index).  `key_bits` is the
database's key width in bits; the loop runs `key_bits/2 - nt + 1` times
(as in the C code for the supported range `nt ≤ key_bits/2`).  The C
`uint64_t mask = 1 << (nt*2); mask--` equals `(1 <<< (nt*2)) - 1` for the
supported range `nt ∈ [1,15]`.  `min_bin_key` starts at `~0 = 2^64 - 1`. -/
def bin_key_core (kmer nt key_bits xor_mask : Nat) : Nat :=
  let mask := (1 <<< (nt * 2)) - 1
  binKeyGo (xor_mask &&& mask) mask nt (key_bits / 2 - nt + 1) kmer (U64 - 1)

/-- The Kraken DB index: version (1 or 2), minimizer length `nt`, and the
offset array `B[0 .. 4^nt]` read from the index file. -/
structure KrakenDBIndex where
  idx_type : Nat
  nt : Nat
  arr : List Nat
deriving DecidableEq

/-- `KrakenDBIndex::at` without the `TESTING` guard: plain array read. -/
def KrakenDBIndex.at (idx : KrakenDBIndex) (i : Nat) : Nat :=
  idx.arr.getD i 0

/-- `KrakenDBIndex::at` in a `TESTING` build: the guard
`idx > 1 + (1ull << (nt * 2))` calls `errx` (modelled as `none`); otherwise
the array entry is read (positions past the `(4^nt)+1`-entry array are an
out-of-bounds read in C; the model returns the `getD` default there). -/
def KrakenDBIndex.at_testing (idx : KrakenDBIndex) (i : Nat) : Option Nat :=
  if i > 1 + (1 <<< (idx.nt * 2)) then none else some (idx.arr.getD i 0)

/-- The Kraken database: the pair array (key, 32-bit taxon value) and the
key width in bits.  `k = key_bits/2`, `key_ct = pairs.length`. -/
structure KrakenDB where
  pairs : List (Nat × Nat)
  key_bits : Nat
deriving DecidableEq

/-- `KrakenDB::bin_key(kmer)` (one-argument overload): minimizer length and
XOR mask come from the bound index (`xor_mask = 0` iff the index is v1). -/
def KrakenDB.bin_key1 (db : KrakenDB) (idx : KrakenDBIndex) (kmer : Nat) : Nat :=
  bin_key_core kmer idx.nt db.key_bits
    (if idx.idx_type = 1 then 0 else INDEX2_XOR_MASK)

/-- The key read at pair-array position `i` by `FAST_COPY` followed by
`comp_kmer &= (1ull << key_bits) - 1`. -/
def KrakenDB.pairKeyAt (db : KrakenDB) (i : Int) : Nat :=
  (db.pairs.getD i.toNat (0, 0)).1 &&& ((1 <<< db.key_bits) - 1)

/-- The 4-byte value stored right after the key at pair-array position `i`. -/
def KrakenDB.pairValAt (db : KrakenDB) (i : Int) : Nat :=
  (db.pairs.getD i.toNat (0, 0)).2

/-- The linear tail of `kmer_query` (`for (mid = min; mid <= max; mid++)`):
return the value of the first position whose (masked) key equals `kmer`.
The fuel argument strictly exceeds the window size at every call site, so
the `0` case is never reached on the modelled executions. -/
def linScan (db : KrakenDB) (kmer : Nat) : Nat → Int → Int → Option Nat
  | 0, _, _ => none
  | fuel + 1, mn, mx =>
      if mn ≤ mx then
        if kmer = db.pairKeyAt mn then some (db.pairValAt mn)
        else linScan db kmer fuel (mn + 1) mx
      else none

/-- The binary phase of `kmer_query` (`while (min + 15 <= max)`), switching
to `linScan` once the window holds at most 16 elements.  `mid` is
`min + (max - min) / 2`; the division only happens with `max - min ≥ 15`,
where C's truncated signed division agrees with `Int`'s division. -/
def searchLoop (db : KrakenDB) (kmer : Nat) : Nat → Int → Int → Option Nat
  | 0, _, _ => none
  | fuel + 1, mn, mx =>
      if mn + 15 ≤ mx then
        let mid := mn + (mx - mn) / 2
        let comp_kmer := db.pairKeyAt mid
        if comp_kmer < kmer then searchLoop db kmer fuel (mid + 1) mx
        else if kmer < comp_kmer then searchLoop db kmer fuel mn (mid - 1)
        else some (db.pairValAt mid)
      else linScan db kmer ((mx + 1 - mn).toNat + 1) mn mx

/-- The whole search over the window `[mn, mx]` (lines 115–135 of
`krakendb.hpp`): binary phase, then linear phase, `none` on a miss. -/
def hybrid_search (db : KrakenDB) (kmer : Nat) (mn mx : Int) : Option Nat :=
  searchLoop db kmer ((mx + 1 - mn).toNat + 1) mn mx

/-- `kmer_query(kmer, …, retry_on_failure = false)`: the provided state is
ignored (the guard `retry_on_failure && *min_pos <= *max_pos` short-circuits),
the bin key and window are computed from the index and searched once. -/
def kmerQueryNR (db : KrakenDB) (idx : KrakenDBIndex) (kmer : Nat) : Option Nat :=
  let b_key := db.bin_key1 idx kmer
  let mn : Int := idx.at b_key
  let mx : Int := (idx.at (b_key + 1) : Int) - 1
  hybrid_search db kmer mn mx

/-- Lines 115–156 of `kmer_query` with `retry_on_failure = true` and the
three pointers holding `(b_key, mn, mx)`: search the window; on a miss
recompute the bin key; if it did not change, fail with the state unchanged;
otherwise search the new bin (the recursive call with
`retry_on_failure = false`) and hand the new bin's full window back. -/
def kmerQuerySearchPhase (db : KrakenDB) (idx : KrakenDBIndex) (kmer : Nat)
    (b_key : Nat) (mn mx : Int) : Option Nat × Nat × Int × Int :=
  match hybrid_search db kmer mn mx with
  | some v => (some v, b_key, mn, mx)
  | none =>
      let b2 := db.bin_key1 idx kmer
      if b2 = b_key then (none, b_key, mn, mx)
      else
        let mn2 : Int := idx.at b2
        let mx2 : Int := (idx.at (b2 + 1) : Int) - 1
        (kmerQueryNR db idx kmer, b2, mn2, mx2)

/-- Full model of `kmer_query(kmer, last_bin_key, min_pos, max_pos,
retry_on_failure)`.  Each pointer parameter is `Option`-valued (`none` =
NULL); the result is `none` exactly when the C code would dereference or
write through a NULL pointer, and otherwise `some (answer, final pointer
contents)`.  With `retry_on_failure = true` the guard dereferences
`*min_pos` and `*max_pos`; a valid state is reused (reading
`*last_bin_key`), otherwise the freshly computed bin state is written back
through all three pointers. -/
def kmerQueryRaw (db : KrakenDB) (idx : KrakenDBIndex) (kmer : Nat)
    (last_bin_key : Option Nat) (min_pos max_pos : Option Int)
    (retry_on_failure : Bool) :
    Option (Option Nat × Option Nat × Option Int × Option Int) :=
  if retry_on_failure then
    match min_pos, max_pos with
    | some mn0, some mx0 =>
        if mn0 ≤ mx0 then
          match last_bin_key with
          | some b0 =>
              let r := kmerQuerySearchPhase db idx kmer b0 mn0 mx0
              some (r.1, some r.2.1, some r.2.2.1, some r.2.2.2)
          | none => none
        else
          match last_bin_key with
          | some _ =>
              let b_key := db.bin_key1 idx kmer
              let mn : Int := idx.at b_key
              let mx : Int := (idx.at (b_key + 1) : Int) - 1
              let r := kmerQuerySearchPhase db idx kmer b_key mn mx
              some (r.1, some r.2.1, some r.2.2.1, some r.2.2.2)
          | none => none
    | _, _ => none
  else
    some (kmerQueryNR db idx kmer, last_bin_key, min_pos, max_pos)

/-- The stateless `kmer_query(kmer)`: calls the full form with three NULL
pointers and `retry_on_failure = false`. -/
def KrakenDB.kmer_query (db : KrakenDB) (idx : KrakenDBIndex) (kmer : Nat) :
    Option Nat :=
  match kmerQueryRaw db idx kmer none none none false with
  | some (r, _, _, _) => r
  | none => none

/-- The amortised stateful query: the caller's `(last_bin_key, min_pos,
max_pos)` triple, passed by non-NULL pointers with
`retry_on_failure = true`. -/
def kmer_query_stateful (db : KrakenDB) (idx : KrakenDBIndex) (kmer : Nat)
    (st : Nat × Int × Int) : Option Nat × Nat × Int × Int :=
  match kmerQueryRaw db idx kmer (some st.1) (some st.2.1) (some st.2.2) true with
  | some (r, some b, some mn, some mx) => (r, b, mn, mx)
  | _ => (none, st.1, st.2.1, st.2.2)

/-- States reachable by the amortised query: an initial state with
`min_pos > max_pos`, or the state left behind by a stateful query from a
reachable state. -/
inductive ReachableState (db : KrakenDB) (idx : KrakenDBIndex) :
    Nat × Int × Int → Prop
  | init (st : Nat × Int × Int) : st.2.2 < st.2.1 → ReachableState db idx st
  | step (st : Nat × Int × Int) (kmer : Nat) : ReachableState db idx st →
      ReachableState db idx (kmer_query_stateful db idx kmer st).2

/-- The states the amortised query can actually be in: an invalid window
(`max_pos < min_pos`, forcing re-initialisation), or exactly the cached
window of some bin `b`. -/
def StateOK (db : KrakenDB) (idx : KrakenDBIndex) (st : Nat × Int × Int) : Prop :=
  st.2.2 < st.2.1 ∨
  ∃ b, b < 4 ^ idx.nt ∧
    st = (b, (idx.at b : Int), (idx.at (b + 1) : Int) - 1)

/-- Per-pair histogram of `KrakenDB::make_index`: how many stored keys fall
in bin `b` under the two-argument `bin_key` (which always uses
`INDEX2_XOR_MASK`). -/
def binCount (db : KrakenDB) (nt : Nat) (b : Nat) : Nat :=
  (db.pairs.map Prod.fst).countP
    (fun kmer => bin_key_core kmer nt db.key_bits INDEX2_XOR_MASK == b)

/-- The offset array written by `KrakenDB::make_index`:
`bin_offsets[0] = 0`, `bin_offsets[i] = bin_offsets[i-1] + bin_counts[i-1]`. -/
def binOffset (db : KrakenDB) (nt : Nat) : Nat → Nat
  | 0 => 0
  | i + 1 => binOffset db nt i + binCount db nt i

/-- Little-endian read of 8 bytes at offset `off` (the `memcpy` into a
`uint64_t` done by the `KrakenDB` constructor). -/
def readLE8 (bytes : List Nat) (off : Nat) : Nat :=
  bytes.getD off 0 +
  256 * (bytes.getD (off + 1) 0 +
  256 * (bytes.getD (off + 2) 0 +
  256 * (bytes.getD (off + 3) 0 +
  256 * (bytes.getD (off + 4) 0 +
  256 * (bytes.getD (off + 5) 0 +
  256 * (bytes.getD (off + 6) 0 +
  256 * bytes.getD (off + 7) 0))))))

/-- The ASCII bytes of the magic string `"JFLISTDN"`. -/
def DATABASE_FILE_TYPE : List Nat := [74, 70, 76, 73, 83, 84, 68, 78]

/-- `strncmp(ptr, "JFLISTDN", 8) == 0`: the first 8 bytes match the magic. -/
def magicMatches (bytes : List Nat) : Bool :=
  (List.range 8).all fun j => bytes.getD j 0 == DATABASE_FILE_TYPE.getD j 0

/-- The header fields the `KrakenDB(char *ptr)` constructor extracts. -/
structure KrakenDBFields where
  key_bits : Nat
  val_len : Nat
  key_ct : Nat
  k : Nat
  key_len : Nat
deriving DecidableEq

/-- The `KrakenDB(char *ptr)` constructor: check the magic (`errx` on
mismatch, modelled as `none`), read `key_bits`, `val_len`, `key_ct` at
offsets 8, 16, 48, require `val_len = 4`, and derive
`k = key_bits / 2` — narrowed into the `uint8_t` member `k`, hence taken
mod 256 — and `key_len = key_bits/8 + !!(key_bits % 8)` (a `uint64_t`,
no narrowing). -/
def kdb_open (bytes : List Nat) : Option KrakenDBFields :=
  if magicMatches bytes then
    let kb := readLE8 bytes 8
    let vl := readLE8 bytes 16
    let kc := readLE8 bytes 48
    if vl = 4 then
      some ⟨kb, vl, kc, kb / 2 % 256, kb / 8 + (if kb % 8 = 0 then 0 else 1)⟩
    else none
  else none

/-- The §3 data-model invariants of a database with a bound index:
supported minimizer length, well-formed offset array (`B[0] = 0`, monotone,
`B[4^nt] = key_ct`), every stored key packed in `key_bits` bits and
canonical, keys strictly increasing within a bin, and the offsets
delimiting the bins (`B[b] ≤ i < B[b+1]` exactly for the pairs whose bin
key is `b`). -/
def DBInvariants (db : KrakenDB) (idx : KrakenDBIndex) : Prop :=
  1 ≤ idx.nt ∧ idx.nt ≤ 15 ∧ idx.nt ≤ db.key_bits / 2 ∧
  idx.arr.length = 4 ^ idx.nt + 1 ∧
  idx.at 0 = 0 ∧
  (∀ i, i < 4 ^ idx.nt → idx.at i ≤ idx.at (i + 1)) ∧
  idx.at (4 ^ idx.nt) = db.pairs.length ∧
  (∀ p ∈ db.pairs, p.1 < 2 ^ db.key_bits ∧
    canonical_representation p.1 (db.key_bits / 2) = p.1) ∧
  (∀ j, j < db.pairs.length → ∀ i, i < j →
    db.bin_key1 idx (db.pairs.getD i (0, 0)).1 =
      db.bin_key1 idx (db.pairs.getD j (0, 0)).1 →
    (db.pairs.getD i (0, 0)).1 < (db.pairs.getD j (0, 0)).1) ∧
  (∀ b, b < 4 ^ idx.nt → ∀ i, i < db.pairs.length →
    ((idx.at b ≤ i ∧ i < idx.at (b + 1)) ↔
      db.bin_key1 idx (db.pairs.getD i (0, 0)).1 = b))

instance DBInvariants.instDecidable (db : KrakenDB) (idx : KrakenDBIndex) :
    Decidable (DBInvariants db idx) := by
  unfold DBInvariants
  infer_instance

/-- Reversal of the `n` base-4 digits of a number: the specification-level
counterpart of the swap network inside `reverse_complement`. -/
def revGroups : Nat → Nat → Nat
  | 0, _ => 0
  | n + 1, x => x % 4 * 4 ^ n + revGroups n (x / 4)

/-- First line of `reverse_complement`: swap adjacent 2-bit groups. -/
def swap2 (x : Nat) : Nat :=
  ((x >>> 2) &&& 0x3333333333333333) ||| ((x &&& 0x3333333333333333) <<< 2)

/-- Second line of `reverse_complement`: swap adjacent 4-bit groups. -/
def swap4 (x : Nat) : Nat :=
  ((x >>> 4) &&& 0x0F0F0F0F0F0F0F0F) ||| ((x &&& 0x0F0F0F0F0F0F0F0F) <<< 4)

/-- Third line of `reverse_complement`: swap adjacent 8-bit groups. -/
def swap8 (x : Nat) : Nat :=
  ((x >>> 8) &&& 0x00FF00FF00FF00FF) ||| ((x &&& 0x00FF00FF00FF00FF) <<< 8)

/-- Fourth line of `reverse_complement`: swap adjacent 16-bit groups. -/
def swap16 (x : Nat) : Nat :=
  ((x >>> 16) &&& 0x0000FFFF0000FFFF) ||| ((x &&& 0x0000FFFF0000FFFF) <<< 16)

/-- Fifth line of `reverse_complement`: swap the two 32-bit halves
(`kmer >> 32 | kmer << 32` in `uint64_t` arithmetic). -/
def rot32 (x : Nat) : Nat :=
  (x >>> 32) ||| ((x <<< 32) % U64)

/-- A concrete database: pairs `(AAAA,10), (ACGT,20), (CCCC,30)` with
`k = 4` (`key_bits = 8`), sorted by (v1 bin key, key). -/
def cdb : KrakenDB := ⟨[(0, 10), (27, 20), (85, 30)], 8⟩

/-- A concrete v1 index for `cdb` with `nt = 2`: bins 0, 1 and 5 hold one
pair each. -/
def cidx : KrakenDBIndex :=
  ⟨1, 2, [0, 1, 2, 2, 2, 2, 3, 3, 3, 3, 3, 3, 3, 3, 3, 3, 3]⟩

/-- A well-formed 56-byte header: magic, `key_bits = 8`, `val_len = 4`,
`key_ct = 3`. -/
def goodBytes : List Nat :=
  [74, 70, 76, 73, 83, 84, 68, 78,
   8, 0, 0, 0, 0, 0, 0, 0,
   4, 0, 0, 0, 0, 0, 0, 0] ++ List.replicate 24 0 ++ [3, 0, 0, 0, 0, 0, 0, 0]

/-- A well-formed 56-byte header with a large key width: magic,
`key_bits = 512`, `val_len = 4`, `key_ct = 1`.  On this input the
constructor's `uint8_t` field `k` wraps: `k = (512 / 2) % 256 = 0`. -/
def wrapBytes : List Nat :=
  [74, 70, 76, 73, 83, 84, 68, 78,
   0, 2, 0, 0, 0, 0, 0, 0,
   4, 0, 0, 0, 0, 0, 0, 0] ++ List.replicate 24 0 ++ [1, 0, 0, 0, 0, 0, 0, 0]

-- ===== Helper lemmas =====

theorem reverse_complement_decompose (x : Nat) (n : Nat) :
    reverse_complement x n =
      (U64 - 1 - rot32 (swap16 (swap8 (swap4 (swap2 x))))) >>> (64 - 2 * n) := rfl

theorem testBit_high {a : Nat} (ha : a < 2 ^ 64) :
    ∀ j, 64 ≤ j → a.testBit j = false := fun _ hj =>
  Nat.testBit_lt_two_pow (lt_of_lt_of_le ha (Nat.pow_le_pow_right (by norm_num) hj))

theorem testBit_swap (s M : Nat)
    (hM : ∀ j, j < 64 → M.testBit j = decide (j % (2 * s) < s))
    (hxor : ∀ j, j < 64 →
      (j % (2 * s) < s → j ^^^ s = j + s ∧ ¬(s ≤ j ∧ (j - s) % (2 * s) < s)) ∧
      (¬ j % (2 * s) < s → j ^^^ s = j - s ∧ s ≤ j ∧ (j - s) % (2 * s) < s))
    (x : Nat) (i : Nat) (hi : i < 64) :
    (((x >>> s) &&& M) ||| ((x &&& M) <<< s)).testBit i = x.testBit (i ^^^ s) := by
  simp only [Nat.testBit_lor, Nat.testBit_land, Nat.testBit_shiftRight,
    Nat.testBit_shiftLeft]
  by_cases h : i % (2 * s) < s
  · obtain ⟨he, hn⟩ := (hxor i hi).1 h
    rw [hM i hi, he]
    by_cases hsi : s ≤ i
    · have hms : M.testBit (i - s) = false := by
        rw [hM (i - s) (by omega)]
        simp only [decide_eq_false_iff_not]
        exact fun hcon => hn ⟨hsi, hcon⟩
      rw [hms]
      simp [h, Nat.add_comm]
    · have hsi' : ¬ i ≥ s := hsi
      simp [h, hsi', Nat.add_comm]
  · obtain ⟨he, hsi, hms⟩ := (hxor i hi).2 h
    rw [hM i hi, he, hM (i - s) (by omega)]
    simp [h, hsi, hms]

theorem swap2_testBit (x : Nat) (i : Nat) (hi : i < 64) :
    (swap2 x).testBit i = x.testBit (i ^^^ 2) :=
  testBit_swap 2 0x3333333333333333 (by decide) (by decide) x i hi

theorem swap4_testBit (x : Nat) (i : Nat) (hi : i < 64) :
    (swap4 x).testBit i = x.testBit (i ^^^ 4) :=
  testBit_swap 4 0x0F0F0F0F0F0F0F0F (by decide) (by decide) x i hi

theorem swap8_testBit (x : Nat) (i : Nat) (hi : i < 64) :
    (swap8 x).testBit i = x.testBit (i ^^^ 8) :=
  testBit_swap 8 0x00FF00FF00FF00FF (by decide) (by decide) x i hi

theorem swap16_testBit (x : Nat) (i : Nat) (hi : i < 64) :
    (swap16 x).testBit i = x.testBit (i ^^^ 16) :=
  testBit_swap 16 0x0000FFFF0000FFFF (by decide) (by decide) x i hi

theorem rot32_testBit (x : Nat) (hx : x < 2 ^ 64) (i : Nat) (hi : i < 64) :
    (rot32 x).testBit i = x.testBit (i ^^^ 32) := by
  have hidx : ∀ j, j < 64 →
      (j < 32 → j ^^^ 32 = j + 32) ∧ (32 ≤ j → j ^^^ 32 = j - 32) := by decide
  unfold rot32 U64
  simp only [Nat.testBit_lor, Nat.testBit_shiftRight, Nat.testBit_mod_two_pow,
    Nat.testBit_shiftLeft]
  by_cases h : i < 32
  · rw [(hidx i hi).1 h]
    have h2 : ¬ i ≥ 32 := by omega
    simp [h2, hi, Nat.add_comm]
  · rw [(hidx i hi).2 (by omega)]
    have h2 : x.testBit (32 + i) = false := testBit_high hx (32 + i) (by omega)
    have h3 : i ≥ 32 := by omega
    simp [h2, h3, hi]

theorem swap_lt (s M x : Nat) (hM : M < 2 ^ 64) (hMs : M <<< s < 2 ^ 64) :
    (((x >>> s) &&& M) ||| ((x &&& M) <<< s)) < 2 ^ 64 := by
  apply Nat.or_lt_two_pow
  · exact lt_of_le_of_lt Nat.and_le_right hM
  · calc (x &&& M) <<< s ≤ M <<< s := by
          simp only [Nat.shiftLeft_eq]
          exact Nat.mul_le_mul_right _ Nat.and_le_right
      _ < 2 ^ 64 := hMs

theorem swap2_lt (x : Nat) : swap2 x < 2 ^ 64 :=
  swap_lt 2 0x3333333333333333 x (by norm_num) (by decide)

theorem swap4_lt (x : Nat) : swap4 x < 2 ^ 64 :=
  swap_lt 4 0x0F0F0F0F0F0F0F0F x (by norm_num) (by decide)

theorem swap8_lt (x : Nat) : swap8 x < 2 ^ 64 :=
  swap_lt 8 0x00FF00FF00FF00FF x (by norm_num) (by decide)

theorem swap16_lt (x : Nat) : swap16 x < 2 ^ 64 :=
  swap_lt 16 0x0000FFFF0000FFFF x (by norm_num) (by decide)

theorem rot32_lt (x : Nat) (hx : x < 2 ^ 64) : rot32 x < 2 ^ 64 := by
  unfold rot32 U64
  apply Nat.or_lt_two_pow
  · exact lt_of_le_of_lt (by rw [Nat.shiftRight_eq_div_pow]; exact Nat.div_le_self _ _) hx
  · exact Nat.mod_lt _ (by norm_num)

theorem rev64_testBit (x : Nat) (i : Nat) (hi : i < 64) :
    (rot32 (swap16 (swap8 (swap4 (swap2 x))))).testBit i =
      x.testBit (2 * (31 - i / 2) + i % 2) := by
  have h2 := swap2_lt x
  have h4 := swap4_lt (swap2 x)
  have h8 := swap8_lt (swap4 (swap2 x))
  have h16 := swap16_lt (swap8 (swap4 (swap2 x)))
  have hb : ∀ j : Nat, j < 64 → j ^^^ 32 < 64 ∧ j ^^^ 16 < 64 ∧ j ^^^ 8 < 64 ∧
      j ^^^ 4 < 64 := by decide
  have hcomp : ∀ j : Nat, j < 64 →
      ((((j ^^^ 32) ^^^ 16) ^^^ 8) ^^^ 4) ^^^ 2 = 2 * (31 - j / 2) + j % 2 := by decide
  rw [rot32_testBit _ h16 i hi,
      swap16_testBit _ _ ((hb i hi).1),
      swap8_testBit _ _ ((hb _ (hb i hi).1).2.1),
      swap4_testBit _ _ ((hb _ ((hb _ (hb i hi).1).2.1)).2.2.1),
      swap2_testBit _ _ ((hb _ ((hb _ ((hb _ (hb i hi).1).2.1)).2.2.1)).2.2.2),
      hcomp i hi]

theorem four_pow_eq (n : Nat) : (4 : Nat) ^ n = 2 ^ (2 * n) := by
  rw [pow_mul]
  norm_num

theorem revGroups_lt (n x : Nat) : revGroups n x < 4 ^ n := by
  induction n generalizing x with
  | zero => simp [revGroups]
  | succ n ih =>
    have h1 : revGroups n (x / 4) < 4 ^ n := ih (x / 4)
    have h2 : x % 4 < 4 := Nat.mod_lt _ (by norm_num)
    have h3 : (4 : Nat) ^ (n + 1) = 4 * 4 ^ n := by ring
    have h4 : (0 : Nat) < 4 ^ n := Nat.pos_pow_of_pos _ (by norm_num)
    simp only [revGroups]
    nlinarith

theorem testBit_mul_pow_add (a b k j : Nat) (hb : b < 2 ^ k) :
    (a * 2 ^ k + b).testBit j =
      if j < k then b.testBit j else a.testBit (j - k) := by
  by_cases hj : j < k
  · rw [if_pos hj]
    have hsplit : (2 : Nat) ^ k = 2 ^ (k - j) * 2 ^ j := by
      rw [← pow_add]
      congr 1
      omega
    have h1 : (a * 2 ^ k + b) / 2 ^ j = b / 2 ^ j + a * 2 ^ (k - j) := by
      rw [hsplit, ← Nat.mul_assoc, Nat.add_comm,
        Nat.add_mul_div_right _ _ (Nat.pos_pow_of_pos j (by norm_num))]
    have h2 : a * 2 ^ (k - j) % 2 = 0 := by
      have : (2 : Nat) ^ (k - j) = 2 * 2 ^ (k - j - 1) := by
        rw [← pow_succ']
        congr 1
        omega
      rw [this, ← Nat.mul_assoc]
      have h5 : a * 2 * 2 ^ (k - j - 1) = a * 2 ^ (k - j - 1) * 2 := by ring
      rw [h5]
      exact Nat.mul_mod_left _ _
    simp only [Nat.testBit_to_div_mod, h1]
    exact decide_eq_decide.mpr (by omega)
  · rw [if_neg hj]
    have h0 : (a * 2 ^ k + b) / 2 ^ k = a := by
      rw [Nat.add_comm, Nat.add_mul_div_right _ _ (Nat.pos_pow_of_pos k (by norm_num)),
        Nat.div_eq_of_lt hb]
      omega
    have h1 : (a * 2 ^ k + b) / 2 ^ j = a / 2 ^ (j - k) := by
      have hsplit : (2 : Nat) ^ j = 2 ^ k * 2 ^ (j - k) := by
        rw [← pow_add]
        congr 1
        omega
      rw [hsplit, ← Nat.div_div_eq_div_mul, h0]
    simp only [Nat.testBit_to_div_mod, h1]

theorem revGroups_testBit (n : Nat) :
    ∀ x j, j < 2 * n →
      (revGroups n x).testBit j = x.testBit (2 * (n - 1 - j / 2) + j % 2) := by
  induction n with
  | zero => omega
  | succ n ih =>
    intro x j hj
    have hlt : revGroups n (x / 4) < 2 ^ (2 * n) := by
      rw [← four_pow_eq]
      exact revGroups_lt n (x / 4)
    have h4 : (4 : Nat) ^ n = 2 ^ (2 * n) := four_pow_eq n
    simp only [revGroups, h4]
    rw [testBit_mul_pow_add _ _ _ _ hlt]
    by_cases hj2 : j < 2 * n
    · rw [if_pos hj2, ih (x / 4) j hj2]
      have hdiv : x / 4 = x >>> 2 := by
        rw [Nat.shiftRight_eq_div_pow]
      rw [hdiv, Nat.testBit_shiftRight]
      congr 1
      omega
    · rw [if_neg hj2]
      have hx4 : x % 4 = x % 2 ^ 2 := by norm_num
      rw [hx4, Nat.testBit_mod_two_pow]
      have hb1 : j - 2 * n < 2 := by omega
      have hb2 : 2 * (n + 1 - 1 - j / 2) + j % 2 = j - 2 * n := by omega
      rw [hb2]
      simp [hb1]

theorem revGroups_invol (n x : Nat) (hx : x < 4 ^ n) :
    revGroups n (revGroups n x) = x := by
  apply Nat.eq_of_testBit_eq
  intro j
  by_cases hj : j < 2 * n
  · rw [revGroups_testBit n _ j hj]
    have hj2 : 2 * (n - 1 - j / 2) + j % 2 < 2 * n := by omega
    rw [revGroups_testBit n x _ hj2]
    congr 1
    omega
  · have h1 : (revGroups n (revGroups n x)).testBit j = false := by
      apply Nat.testBit_lt_two_pow
      calc revGroups n (revGroups n x) < 4 ^ n := revGroups_lt _ _
        _ = 2 ^ (2 * n) := four_pow_eq n
        _ ≤ 2 ^ j := Nat.pow_le_pow_right (by norm_num) (by omega)
    have h2 : x.testBit j = false := by
      apply Nat.testBit_lt_two_pow
      calc x < 4 ^ n := hx
        _ = 2 ^ (2 * n) := four_pow_eq n
        _ ≤ 2 ^ j := Nat.pow_le_pow_right (by norm_num) (by omega)
    rw [h1, h2]

theorem revGroups_compl (n x : Nat) (hx : x < 4 ^ n) :
    revGroups n (4 ^ n - 1 - x) = 4 ^ n - 1 - revGroups n x := by
  induction n generalizing x with
  | zero => simp [revGroups]
  | succ n ih =>
    have hA : (0 : Nat) < 4 ^ n := Nat.pos_pow_of_pos _ (by norm_num)
    have h3 : (4 : Nat) ^ (n + 1) = 4 * 4 ^ n := by ring
    have hm : (4 ^ (n + 1) - 1 - x) % 4 = 3 - x % 4 := by omega
    have hd : (4 ^ (n + 1) - 1 - x) / 4 = 4 ^ n - 1 - x / 4 := by omega
    have hx4 : x / 4 < 4 ^ n := by omega
    have hrg : revGroups n (x / 4) < 4 ^ n := revGroups_lt _ _
    simp only [revGroups, hm, hd, ih (x / 4) hx4]
    have hxm : x % 4 < 4 := Nat.mod_lt _ (by norm_num)
    rw [h3]
    set m := x % 4 with hmdef
    interval_cases m <;> omega

theorem rev64_eq_revGroups (n x : Nat) (hn : n ≤ 32) (hx : x < 2 ^ (2 * n)) :
    rot32 (swap16 (swap8 (swap4 (swap2 x)))) = revGroups n x * 2 ^ (64 - 2 * n) := by
  have hrg : revGroups n x < 2 ^ (2 * n) := by
    rw [← four_pow_eq]
    exact revGroups_lt n x
  apply Nat.eq_of_testBit_eq
  intro i
  by_cases hi : i < 64
  · rw [rev64_testBit x i hi, ← Nat.shiftLeft_eq, Nat.testBit_shiftLeft]
    by_cases hge : i ≥ 64 - 2 * n
    · have hj : i - (64 - 2 * n) < 2 * n := by omega
      rw [revGroups_testBit n x _ hj]
      have hidx : 2 * (n - 1 - (i - (64 - 2 * n)) / 2) + (i - (64 - 2 * n)) % 2 =
          2 * (31 - i / 2) + i % 2 := by omega
      rw [hidx]
      simp [hge]
    · have h1 : x.testBit (2 * (31 - i / 2) + i % 2) = false := by
        apply Nat.testBit_lt_two_pow
        calc x < 2 ^ (2 * n) := hx
          _ ≤ 2 ^ (2 * (31 - i / 2) + i % 2) :=
            Nat.pow_le_pow_right (by norm_num) (by omega)
      simp [hge, h1]
  · have h1 : (rot32 (swap16 (swap8 (swap4 (swap2 x))))).testBit i = false :=
      testBit_high (rot32_lt _ (swap16_lt _)) i (by omega)
    have h2 : (revGroups n x * 2 ^ (64 - 2 * n)).testBit i = false := by
      apply testBit_high _ i (by omega)
      calc revGroups n x * 2 ^ (64 - 2 * n) < 2 ^ (2 * n) * 2 ^ (64 - 2 * n) :=
            (Nat.mul_lt_mul_right (Nat.pos_pow_of_pos _ (by norm_num))).mpr hrg
        _ = 2 ^ 64 := by rw [← pow_add]; congr 1; omega
    rw [h1, h2]

theorem reverse_complement_eq (n x : Nat) (hn : n ≤ 32) (hx : x < 2 ^ (2 * n)) :
    reverse_complement x n = 2 ^ (2 * n) - 1 - revGroups n x := by
  rw [reverse_complement_decompose, rev64_eq_revGroups n x hn hx]
  have hrg : revGroups n x < 2 ^ (2 * n) := by
    rw [← four_pow_eq]
    exact revGroups_lt n x
  have hA : (0 : Nat) < 2 ^ (64 - 2 * n) := Nat.pos_pow_of_pos _ (by norm_num)
  have hAB : 2 ^ (2 * n) * 2 ^ (64 - 2 * n) = 2 ^ 64 := by
    rw [← pow_add]
    congr 1
    omega
  have hmul : (1 + revGroups n x) * 2 ^ (64 - 2 * n) ≤
      2 ^ (2 * n) * 2 ^ (64 - 2 * n) :=
    Nat.mul_le_mul_right _ (by omega)
  have key : U64 - 1 - revGroups n x * 2 ^ (64 - 2 * n) =
      (2 ^ (2 * n) - 1 - revGroups n x) * 2 ^ (64 - 2 * n) + (2 ^ (64 - 2 * n) - 1) := by
    have hsub : (2 ^ (2 * n) - 1 - revGroups n x) * 2 ^ (64 - 2 * n) =
        2 ^ (2 * n) * 2 ^ (64 - 2 * n) - (1 + revGroups n x) * 2 ^ (64 - 2 * n) := by
      rw [← Nat.sub_mul]
      congr 1
      omega
    have hdist : (1 + revGroups n x) * 2 ^ (64 - 2 * n) =
        2 ^ (64 - 2 * n) + revGroups n x * 2 ^ (64 - 2 * n) := by ring
    rw [hsub, hAB] at *
    unfold U64
    omega
  rw [key, Nat.shiftRight_eq_div_pow, Nat.mul_comm,
    Nat.mul_add_div hA, Nat.div_eq_of_lt (by omega)]
  omega

theorem reverse_complement_lt (n x : Nat) (hn : n ≤ 32) :
    reverse_complement x n < 2 ^ (2 * n) := by
  rw [reverse_complement_decompose, Nat.shiftRight_eq_div_pow]
  have h1 : U64 - 1 - rot32 (swap16 (swap8 (swap4 (swap2 x)))) < 2 ^ 64 := by
    unfold U64
    have := Nat.pos_pow_of_pos 64 (show 0 < 2 by norm_num)
    omega
  rw [Nat.div_lt_iff_lt_mul (Nat.pos_pow_of_pos _ (by norm_num))]
  calc U64 - 1 - rot32 (swap16 (swap8 (swap4 (swap2 x)))) < 2 ^ 64 := h1
    _ = 2 ^ (2 * n) * 2 ^ (64 - 2 * n) := by rw [← pow_add]; congr 1; omega

theorem reverse_complement_invol (n x : Nat) (hn : n ≤ 32) (hx : x < 2 ^ (2 * n)) :
    reverse_complement (reverse_complement x n) n = x := by
  have hrg : revGroups n x < 4 ^ n := revGroups_lt n x
  have hrc : reverse_complement x n < 2 ^ (2 * n) := reverse_complement_lt n x hn
  rw [reverse_complement_eq n x hn hx, reverse_complement_eq n _ hn (by omega)]
  rw [← four_pow_eq] at *
  rw [revGroups_compl n _ hrg, revGroups_invol n x hx]
  omega

theorem canonical_le_self (x n : Nat) : canonical_representation x n ≤ x := by
  simp only [canonical_representation]
  split <;> omega

theorem binKeyGo_le_acc (xm mask nt : Nat) :
    ∀ c kmer acc, binKeyGo xm mask nt c kmer acc ≤ acc := by
  intro c
  induction c with
  | zero => intro kmer acc; simp [binKeyGo]
  | succ c ih =>
    intro kmer acc
    simp only [binKeyGo]
    refine le_trans (ih _ _) ?_
    split <;> omega

theorem binKeyGo_le_term (xm mask nt : Nat) :
    ∀ c kmer acc i, i < c →
      binKeyGo xm mask nt c kmer acc ≤
        xm ^^^ canonical_representation ((kmer >>> (2 * i)) &&& mask) nt := by
  intro c
  induction c with
  | zero => omega
  | succ c ih =>
    intro kmer acc i hi
    match i with
    | 0 =>
      simp only [binKeyGo, Nat.mul_zero, Nat.shiftRight_zero]
      refine le_trans (binKeyGo_le_acc xm mask nt c _ _) ?_
      split <;> omega
    | j + 1 =>
      simp only [binKeyGo]
      have h := ih (kmer >>> 2) (if xm ^^^ canonical_representation (kmer &&& mask) nt <
          acc then xm ^^^ canonical_representation (kmer &&& mask) nt else acc) j (by omega)
      rw [← Nat.shiftRight_add] at h
      have hidx : 2 + 2 * j = 2 * (j + 1) := by omega
      rw [hidx] at h
      exact h

theorem binKeyGo_cases (xm mask nt : Nat) :
    ∀ c kmer acc, binKeyGo xm mask nt c kmer acc = acc ∨
      ∃ i, i < c ∧ binKeyGo xm mask nt c kmer acc =
        xm ^^^ canonical_representation ((kmer >>> (2 * i)) &&& mask) nt := by
  intro c
  induction c with
  | zero => intro kmer acc; left; simp [binKeyGo]
  | succ c ih =>
    intro kmer acc
    simp only [binKeyGo]
    rcases ih (kmer >>> 2) (if xm ^^^ canonical_representation (kmer &&& mask) nt < acc
        then xm ^^^ canonical_representation (kmer &&& mask) nt else acc) with h | ⟨j, hj, h⟩
    · rw [h]
      by_cases hc : xm ^^^ canonical_representation (kmer &&& mask) nt < acc
      · right
        exact ⟨0, by omega, by simp [hc, Nat.shiftRight_zero]⟩
      · left
        simp [hc]
    · right
      refine ⟨j + 1, by omega, ?_⟩
      rw [h, ← Nat.shiftRight_add]
      have hidx : 2 + 2 * j = 2 * (j + 1) := by omega
      rw [hidx]

theorem bin_mask_eq (nt : Nat) : (1 <<< (nt * 2)) - 1 = 4 ^ nt - 1 := by
  rw [Nat.shiftLeft_eq, Nat.one_mul, four_pow_eq, Nat.mul_comm]

theorem bin_key_term_lt (xm mask nt y : Nat) (hm : mask = 4 ^ nt - 1) :
    (xm &&& mask) ^^^ canonical_representation (y &&& mask) nt < 4 ^ nt := by
  have h4 : (0 : Nat) < 4 ^ nt := Nat.pos_pow_of_pos _ (by norm_num)
  have h1 : xm &&& mask < 4 ^ nt := by
    have := Nat.and_le_right (n := xm) (m := mask)
    omega
  have h2 : canonical_representation (y &&& mask) nt < 4 ^ nt := by
    have ha := Nat.and_le_right (n := y) (m := mask)
    have hb := canonical_le_self (y &&& mask) nt
    omega
  rw [four_pow_eq] at *
  exact Nat.xor_lt_two_pow h1 h2

theorem bin_key_core_lt (kmer nt key_bits xm : Nat) :
    bin_key_core kmer nt key_bits xm < 4 ^ nt := by
  unfold bin_key_core
  rw [bin_mask_eq]
  refine lt_of_le_of_lt
    (binKeyGo_le_term _ _ _ _ kmer _ 0 (by omega)) ?_
  rw [Nat.mul_zero, Nat.shiftRight_zero]
  exact bin_key_term_lt _ _ _ _ rfl

theorem canonical_representation_eq_min (x n : Nat) :
    canonical_representation x n = min x (reverse_complement x n) := by
  simp only [canonical_representation]
  split <;> omega

theorem bin_key_core_eq_inf (kmer nt k xm : Nat) (h2 : nt ≤ 15) :
    bin_key_core kmer nt (2 * k) xm =
      Finset.inf' (Finset.range (k - nt + 1))
        (Finset.nonempty_range_iff.mpr (by omega))
        (fun i => (xm &&& (4 ^ nt - 1)) ^^^
          canonical_representation ((kmer >>> (2 * i)) &&& (4 ^ nt - 1)) nt) := by
  simp only [bin_key_core]
  rw [bin_mask_eq]
  have hc : 2 * k / 2 = k := by omega
  rw [hc]
  apply le_antisymm
  · apply Finset.le_inf'
    intro b hb
    exact binKeyGo_le_term _ _ _ _ _ _ b (Finset.mem_range.mp hb)
  · rcases binKeyGo_cases (xm &&& (4 ^ nt - 1)) (4 ^ nt - 1) nt (k - nt + 1) kmer
        (U64 - 1) with h | ⟨i, hi, h⟩
    · exfalso
      have hle := binKeyGo_le_term (xm &&& (4 ^ nt - 1)) (4 ^ nt - 1) nt
        (k - nt + 1) kmer (U64 - 1) 0 (by omega)
      have hterm := bin_key_term_lt xm (4 ^ nt - 1) nt (kmer >>> (2 * 0)) rfl
      have hpow : (4 : Nat) ^ nt ≤ 4 ^ 15 := Nat.pow_le_pow_right (by norm_num) h2
      have h415 : (4 : Nat) ^ 15 = 1073741824 := by norm_num
      have h64 : U64 = 18446744073709551616 := by unfold U64; norm_num
      omega
    · rw [h]
      exact Finset.inf'_le _ (Finset.mem_range.mpr hi)

theorem linScan_sound (db : KrakenDB) (kmer : Nat) :
    ∀ (fuel : Nat) (mn mx : Int) (v : Nat),
      linScan db kmer fuel mn mx = some v →
      ∃ i : Int, mn ≤ i ∧ i ≤ mx ∧ db.pairKeyAt i = kmer ∧ db.pairValAt i = v := by
  intro fuel
  induction fuel with
  | zero => intro mn mx v h; simp [linScan] at h
  | succ fuel ih =>
    intro mn mx v h
    simp only [linScan] at h
    by_cases hle : mn ≤ mx
    · rw [if_pos hle] at h
      by_cases heq : kmer = db.pairKeyAt mn
      · rw [if_pos heq] at h
        exact ⟨mn, le_refl _, hle, heq.symm, Option.some_inj.mp h⟩
      · rw [if_neg heq] at h
        obtain ⟨i, h1, h2, h3, h4⟩ := ih (mn + 1) mx v h
        exact ⟨i, by omega, h2, h3, h4⟩
    · rw [if_neg hle] at h
      exact absurd h (by simp)

theorem linScan_complete (db : KrakenDB) (kmer : Nat) :
    ∀ (fuel : Nat) (mn mx i : Int),
      (mx + 1 - mn).toNat ≤ fuel → mn ≤ i → i ≤ mx →
      (∀ p q : Int, mn ≤ p → p < q → q ≤ mx → db.pairKeyAt p < db.pairKeyAt q) →
      db.pairKeyAt i = kmer →
      linScan db kmer fuel mn mx = some (db.pairValAt i) := by
  intro fuel
  induction fuel with
  | zero => intro mn mx i hf h1 h2 _ _; omega
  | succ fuel ih =>
    intro mn mx i hf h1 h2 hsort hkey
    simp only [linScan]
    rw [if_pos (by omega)]
    by_cases heq : mn = i
    · rw [if_pos (by rw [heq, hkey])]
      rw [heq]
    · have hlt : mn < i := by omega
      have hne : db.pairKeyAt mn < kmer := by
        rw [← hkey]
        exact hsort mn i (le_refl _) hlt h2
      rw [if_neg (by omega)]
      exact ih (mn + 1) mx i (by omega) (by omega) h2
        (fun p q hp hpq hq => hsort p q (by omega) hpq hq) hkey

theorem searchLoop_sound (db : KrakenDB) (kmer : Nat) :
    ∀ (fuel : Nat) (mn mx : Int) (v : Nat),
      searchLoop db kmer fuel mn mx = some v →
      ∃ i : Int, mn ≤ i ∧ i ≤ mx ∧ db.pairKeyAt i = kmer ∧ db.pairValAt i = v := by
  intro fuel
  induction fuel with
  | zero => intro mn mx v h; simp [searchLoop] at h
  | succ fuel ih =>
    intro mn mx v h
    simp only [searchLoop] at h
    by_cases hbin : mn + 15 ≤ mx
    · rw [if_pos hbin] at h
      have hmid1 : mn ≤ mn + (mx - mn) / 2 := by omega
      have hmid2 : mn + (mx - mn) / 2 ≤ mx := by omega
      by_cases hgt : db.pairKeyAt (mn + (mx - mn) / 2) < kmer
      · rw [if_pos hgt] at h
        obtain ⟨i, h1, h2, h3, h4⟩ := ih _ _ v h
        exact ⟨i, by omega, h2, h3, h4⟩
      · rw [if_neg hgt] at h
        by_cases hlt : kmer < db.pairKeyAt (mn + (mx - mn) / 2)
        · rw [if_pos hlt] at h
          obtain ⟨i, h1, h2, h3, h4⟩ := ih _ _ v h
          exact ⟨i, h1, by omega, h3, h4⟩
        · rw [if_neg hlt] at h
          exact ⟨mn + (mx - mn) / 2, hmid1, hmid2, by omega,
            Option.some_inj.mp h⟩
    · rw [if_neg hbin] at h
      exact linScan_sound db kmer _ mn mx v h

theorem searchLoop_complete (db : KrakenDB) (kmer : Nat) :
    ∀ (fuel : Nat) (mn mx i : Int),
      (mx + 1 - mn).toNat < fuel →
      (∀ p q : Int, mn ≤ p → p < q → q ≤ mx → db.pairKeyAt p < db.pairKeyAt q) →
      mn ≤ i → i ≤ mx → db.pairKeyAt i = kmer →
      searchLoop db kmer fuel mn mx = some (db.pairValAt i) := by
  intro fuel
  induction fuel with
  | zero => intro mn mx i hf _ h1 h2 _; omega
  | succ fuel ih =>
    intro mn mx i hf hsort h1 h2 hkey
    simp only [searchLoop]
    by_cases hbin : mn + 15 ≤ mx
    · rw [if_pos hbin]
      have hmid1 : mn ≤ mn + (mx - mn) / 2 := by omega
      have hmid2 : mn + (mx - mn) / 2 ≤ mx := by omega
      by_cases hgt : db.pairKeyAt (mn + (mx - mn) / 2) < kmer
      · rw [if_pos hgt]
        have hi : mn + (mx - mn) / 2 < i := by
          by_contra hcon
          push_neg at hcon
          rcases lt_or_eq_of_le hcon with hlt | heq
          · have := hsort i (mn + (mx - mn) / 2) h1 hlt hmid2
            omega
          · rw [heq] at hkey
            omega
        exact ih _ _ i (by omega)
          (fun p q hp hpq hq => hsort p q (by omega) hpq hq) (by omega) h2 hkey
      · rw [if_neg hgt]
        by_cases hlt : kmer < db.pairKeyAt (mn + (mx - mn) / 2)
        · rw [if_pos hlt]
          have hi : i < mn + (mx - mn) / 2 := by
            by_contra hcon
            push_neg at hcon
            rcases lt_or_eq_of_le hcon with hlt2 | heq
            · have := hsort (mn + (mx - mn) / 2) i hmid1 hlt2 h2
              omega
            · rw [← heq] at hkey
              omega
          exact ih _ _ i (by omega)
            (fun p q hp hpq hq => hsort p q hp hpq (by omega)) h1 (by omega) hkey
        · rw [if_neg hlt]
          have heq : mn + (mx - mn) / 2 = i := by
            by_contra hcon
            rcases lt_or_gt_of_ne hcon with hc | hc
            · have := hsort (mn + (mx - mn) / 2) i hmid1 hc h2
              omega
            · have := hsort i (mn + (mx - mn) / 2) h1 hc hmid2
              omega
          rw [heq]
    · rw [if_neg hbin]
      exact linScan_complete db kmer _ mn mx i (by omega) h1 h2 hsort hkey

theorem hybrid_search_sound (db : KrakenDB) (kmer : Nat) (mn mx : Int) (v : Nat)
    (h : hybrid_search db kmer mn mx = some v) :
    ∃ i : Int, mn ≤ i ∧ i ≤ mx ∧ db.pairKeyAt i = kmer ∧ db.pairValAt i = v :=
  searchLoop_sound db kmer _ mn mx v h

theorem hybrid_search_complete (db : KrakenDB) (kmer : Nat) (mn mx i : Int)
    (hsort : ∀ p q : Int, mn ≤ p → p < q → q ≤ mx → db.pairKeyAt p < db.pairKeyAt q)
    (h1 : mn ≤ i) (h2 : i ≤ mx) (hkey : db.pairKeyAt i = kmer) :
    hybrid_search db kmer mn mx = some (db.pairValAt i) :=
  searchLoop_complete db kmer _ mn mx i (by omega) hsort h1 h2 hkey

theorem hybrid_search_none (db : KrakenDB) (kmer : Nat) (mn mx : Int)
    (h : ∀ i : Int, mn ≤ i → i ≤ mx → db.pairKeyAt i ≠ kmer) :
    hybrid_search db kmer mn mx = none := by
  cases hres : hybrid_search db kmer mn mx with
  | none => rfl
  | some v =>
    obtain ⟨i, h1, h2, h3, _⟩ := hybrid_search_sound db kmer mn mx v hres
    exact absurd h3 (h i h1 h2)

theorem DBInv_mono {db : KrakenDB} {idx : KrakenDBIndex} (h : DBInvariants db idx) :
    ∀ i, i < 4 ^ idx.nt → idx.at i ≤ idx.at (i + 1) := h.2.2.2.2.2.1

theorem DBInv_total {db : KrakenDB} {idx : KrakenDBIndex} (h : DBInvariants db idx) :
    idx.at (4 ^ idx.nt) = db.pairs.length := h.2.2.2.2.2.2.1

theorem DBInv_keybound {db : KrakenDB} {idx : KrakenDBIndex} (h : DBInvariants db idx) :
    ∀ p ∈ db.pairs, p.1 < 2 ^ db.key_bits :=
  fun p hp => (h.2.2.2.2.2.2.2.1 p hp).1

theorem DBInv_sorted {db : KrakenDB} {idx : KrakenDBIndex} (h : DBInvariants db idx) :
    ∀ j, j < db.pairs.length → ∀ i, i < j →
      db.bin_key1 idx (db.pairs.getD i (0, 0)).1 =
        db.bin_key1 idx (db.pairs.getD j (0, 0)).1 →
      (db.pairs.getD i (0, 0)).1 < (db.pairs.getD j (0, 0)).1 :=
  h.2.2.2.2.2.2.2.2.1

theorem DBInv_delim {db : KrakenDB} {idx : KrakenDBIndex} (h : DBInvariants db idx) :
    ∀ b, b < 4 ^ idx.nt → ∀ i, i < db.pairs.length →
      ((idx.at b ≤ i ∧ i < idx.at (b + 1)) ↔
        db.bin_key1 idx (db.pairs.getD i (0, 0)).1 = b) :=
  h.2.2.2.2.2.2.2.2.2

theorem at_mono (idx : KrakenDBIndex) (E : Nat)
    (hmono : ∀ i, i < E → idx.at i ≤ idx.at (i + 1)) :
    ∀ a c, a ≤ c → c ≤ E → idx.at a ≤ idx.at c := by
  intro a c
  induction c with
  | zero =>
    intro hac _
    have ha : a = 0 := by omega
    rw [ha]
  | succ c ih =>
    intro hac hcE
    rcases Nat.eq_or_lt_of_le hac with heq | hlt
    · rw [heq]
    · exact le_trans (ih (by omega) (by omega)) (hmono c (by omega))

theorem land_mask_self (y n : Nat) (h : y < 2 ^ n) : y &&& ((1 <<< n) - 1) = y := by
  rw [Nat.shiftLeft_eq, Nat.one_mul]
  apply Nat.eq_of_testBit_eq
  intro j
  rw [Nat.testBit_land, Nat.testBit_two_pow_sub_one]
  by_cases hj : j < n
  · simp [hj]
  · have : y.testBit j = false :=
      Nat.testBit_lt_two_pow (lt_of_lt_of_le h (Nat.pow_le_pow_right (by norm_num) (by omega)))
    simp [hj, this]

theorem pairKeyAt_eq_key (db : KrakenDB)
    (hkeys : ∀ p ∈ db.pairs, p.1 < 2 ^ db.key_bits) (i : Int)
    (hl : i.toNat < db.pairs.length) :
    db.pairKeyAt i = (db.pairs.getD i.toNat (0, 0)).1 := by
  unfold KrakenDB.pairKeyAt
  apply land_mask_self
  rw [List.getD_eq_getElem _ _ hl]
  exact hkeys _ (List.getElem_mem hl)

theorem window_within (db : KrakenDB) (idx : KrakenDBIndex)
    (h : DBInvariants db idx) (b : Nat) (hb : b < 4 ^ idx.nt) :
    idx.at (b + 1) ≤ db.pairs.length := by
  calc idx.at (b + 1) ≤ idx.at (4 ^ idx.nt) :=
        at_mono idx (4 ^ idx.nt) (DBInv_mono h) (b + 1) (4 ^ idx.nt) (by omega) (le_refl _)
    _ = db.pairs.length := DBInv_total h

theorem window_bin (db : KrakenDB) (idx : KrakenDBIndex)
    (h : DBInvariants db idx) (b : Nat) (hb : b < 4 ^ idx.nt) (i : Nat)
    (hlo : idx.at b ≤ i) (hhi : i < idx.at (b + 1)) :
    db.bin_key1 idx (db.pairs.getD i (0, 0)).1 = b := by
  have hlen : i < db.pairs.length := lt_of_lt_of_le hhi (window_within db idx h b hb)
  exact (DBInv_delim h b hb i hlen).mp ⟨hlo, hhi⟩

theorem bin_window_sorted (db : KrakenDB) (idx : KrakenDBIndex)
    (h : DBInvariants db idx) (b : Nat) (hb : b < 4 ^ idx.nt) :
    ∀ p q : Int, (idx.at b : Int) ≤ p → p < q → q ≤ (idx.at (b + 1) : Int) - 1 →
      db.pairKeyAt p < db.pairKeyAt q := by
  intro p q hp hpq hq
  have hwin := window_within db idx h b hb
  have hp0 : 0 ≤ p := le_trans (Int.natCast_nonneg _) hp
  have hq0 : 0 ≤ q := by omega
  have hpn : idx.at b ≤ p.toNat ∧ p.toNat < idx.at (b + 1) := by omega
  have hqn : idx.at b ≤ q.toNat ∧ q.toNat < idx.at (b + 1) := by omega
  have hpq' : p.toNat < q.toNat := by omega
  have hplen : p.toNat < db.pairs.length := lt_of_lt_of_le hpn.2 hwin
  have hqlen : q.toNat < db.pairs.length := lt_of_lt_of_le hqn.2 hwin
  have hbp := window_bin db idx h b hb p.toNat hpn.1 hpn.2
  have hbq := window_bin db idx h b hb q.toNat hqn.1 hqn.2
  rw [pairKeyAt_eq_key db (DBInv_keybound h) p hplen,
    pairKeyAt_eq_key db (DBInv_keybound h) q hqlen]
  exact DBInv_sorted h q.toNat hqlen p.toNat hpq' (hbp.trans hbq.symm)

theorem kmer_query_eq_NR (db : KrakenDB) (idx : KrakenDBIndex) (kmer : Nat) :
    db.kmer_query idx kmer = kmerQueryNR db idx kmer := by
  simp [KrakenDB.kmer_query, kmerQueryRaw]

theorem bin_key1_lt (db : KrakenDB) (idx : KrakenDBIndex) (kmer : Nat) :
    db.bin_key1 idx kmer < 4 ^ idx.nt := by
  unfold KrakenDB.bin_key1
  exact bin_key_core_lt _ _ _ _

theorem query_finds (db : KrakenDB) (idx : KrakenDBIndex)
    (h : DBInvariants db idx) (x v : Nat) (hmem : (x, v) ∈ db.pairs) :
    db.kmer_query idx x = some v := by
  have hb : db.bin_key1 idx x < 4 ^ idx.nt := bin_key1_lt db idx x
  set b := db.bin_key1 idx x with hbdef
  obtain ⟨n, hn, hnth⟩ := List.mem_iff_getElem.mp hmem
  have hkey : (db.pairs.getD n (0, 0)).1 = x := by
    rw [List.getD_eq_getElem _ _ hn, hnth]
  have hval : (db.pairs.getD n (0, 0)).2 = v := by
    rw [List.getD_eq_getElem _ _ hn, hnth]
  have hwin : idx.at b ≤ n ∧ n < idx.at (b + 1) :=
    (DBInv_delim h b hb n hn).mpr (by rw [hkey])
  have hlen : ((n : Int)).toNat < db.pairs.length := by
    simpa using hn
  have hkeyi : db.pairKeyAt (n : Int) = x := by
    rw [pairKeyAt_eq_key db (DBInv_keybound h) _ hlen]
    simpa using hkey
  have hvali : db.pairValAt (n : Int) = v := by
    unfold KrakenDB.pairValAt
    simpa using hval
  rw [kmer_query_eq_NR]
  unfold kmerQueryNR
  rw [← hbdef]
  rw [hybrid_search_complete db x _ _ (n : Int)
    (bin_window_sorted db idx h b hb) (by omega) (by omega) hkeyi, hvali]

theorem query_absent (db : KrakenDB) (idx : KrakenDBIndex)
    (h : DBInvariants db idx) (x : Nat)
    (hnot : x ∉ db.pairs.map Prod.fst) :
    db.kmer_query idx x = none := by
  have hb : db.bin_key1 idx x < 4 ^ idx.nt := bin_key1_lt db idx x
  set b := db.bin_key1 idx x with hbdef
  rw [kmer_query_eq_NR]
  unfold kmerQueryNR
  rw [← hbdef]
  apply hybrid_search_none
  intro i hlo hhi hcon
  have hwin := window_within db idx h b hb
  have h0 : 0 ≤ i := le_trans (Int.natCast_nonneg _) hlo
  have hlen : i.toNat < db.pairs.length := by omega
  rw [pairKeyAt_eq_key db (DBInv_keybound h) i hlen] at hcon
  apply hnot
  rw [List.mem_map]
  refine ⟨db.pairs.getD i.toNat (0, 0), ?_, hcon⟩
  rw [List.getD_eq_getElem _ _ hlen]
  exact List.getElem_mem hlen

theorem kmerQueryNR_def (db : KrakenDB) (idx : KrakenDBIndex) (kmer : Nat) :
    kmerQueryNR db idx kmer =
      hybrid_search db kmer (idx.at (db.bin_key1 idx kmer))
        ((idx.at (db.bin_key1 idx kmer + 1) : Int) - 1) := rfl

theorem searchPhase_hit (db : KrakenDB) (idx : KrakenDBIndex) (x : Nat)
    (b0 : Nat) (mn mx : Int) (v : Nat)
    (hres : hybrid_search db x mn mx = some v) :
    kmerQuerySearchPhase db idx x b0 mn mx = (some v, b0, mn, mx) := by
  simp [kmerQuerySearchPhase, hres]

theorem searchPhase_miss_same (db : KrakenDB) (idx : KrakenDBIndex) (x : Nat)
    (b0 : Nat) (mn mx : Int)
    (hres : hybrid_search db x mn mx = none)
    (hb : db.bin_key1 idx x = b0) :
    kmerQuerySearchPhase db idx x b0 mn mx = (none, b0, mn, mx) := by
  simp [kmerQuerySearchPhase, hres, hb]

theorem searchPhase_miss_diff (db : KrakenDB) (idx : KrakenDBIndex) (x : Nat)
    (b0 : Nat) (mn mx : Int)
    (hres : hybrid_search db x mn mx = none)
    (hb : ¬ db.bin_key1 idx x = b0) :
    kmerQuerySearchPhase db idx x b0 mn mx =
      (kmerQueryNR db idx x, db.bin_key1 idx x,
        (idx.at (db.bin_key1 idx x) : Int),
        (idx.at (db.bin_key1 idx x + 1) : Int) - 1) := by
  simp [kmerQuerySearchPhase, hres, hb]

theorem kmer_query_stateful_valid (db : KrakenDB) (idx : KrakenDBIndex)
    (x : Nat) (b0 : Nat) (mn0 mx0 : Int) (hv : mn0 ≤ mx0) :
    kmer_query_stateful db idx x (b0, mn0, mx0) =
      kmerQuerySearchPhase db idx x b0 mn0 mx0 := by
  simp [kmer_query_stateful, kmerQueryRaw, hv]

theorem kmer_query_stateful_invalid (db : KrakenDB) (idx : KrakenDBIndex)
    (x : Nat) (b0 : Nat) (mn0 mx0 : Int) (hv : ¬ mn0 ≤ mx0) :
    kmer_query_stateful db idx x (b0, mn0, mx0) =
      kmerQuerySearchPhase db idx x (db.bin_key1 idx x)
        (idx.at (db.bin_key1 idx x))
        ((idx.at (db.bin_key1 idx x + 1) : Int) - 1) := by
  simp [kmer_query_stateful, kmerQueryRaw, hv]

theorem fresh_phase_ok (db : KrakenDB) (idx : KrakenDBIndex) (x : Nat) :
    (kmerQuerySearchPhase db idx x (db.bin_key1 idx x)
        (idx.at (db.bin_key1 idx x))
        ((idx.at (db.bin_key1 idx x + 1) : Int) - 1)).1 = db.kmer_query idx x ∧
    StateOK db idx (kmerQuerySearchPhase db idx x (db.bin_key1 idx x)
        (idx.at (db.bin_key1 idx x))
        ((idx.at (db.bin_key1 idx x + 1) : Int) - 1)).2 := by
  rw [kmer_query_eq_NR, kmerQueryNR_def]
  cases hres : hybrid_search db x (idx.at (db.bin_key1 idx x))
      ((idx.at (db.bin_key1 idx x + 1) : Int) - 1) with
  | some v =>
    rw [searchPhase_hit db idx x _ _ _ v hres]
    exact ⟨rfl, Or.inr ⟨db.bin_key1 idx x, bin_key1_lt db idx x, rfl⟩⟩
  | none =>
    rw [searchPhase_miss_same db idx x _ _ _ hres rfl]
    exact ⟨rfl, Or.inr ⟨db.bin_key1 idx x, bin_key1_lt db idx x, rfl⟩⟩

theorem stale_window_misses (db : KrakenDB) (idx : KrakenDBIndex)
    (h : DBInvariants db idx) (x : Nat) (b : Nat) (hbE : b < 4 ^ idx.nt)
    (hbx : ¬ db.bin_key1 idx x = b) :
    hybrid_search db x (idx.at b) ((idx.at (b + 1) : Int) - 1) = none := by
  apply hybrid_search_none
  intro i hlo hhi hcon
  have hwin := window_within db idx h b hbE
  have h0 : 0 ≤ i := le_trans (Int.natCast_nonneg _) hlo
  have hlen : i.toNat < db.pairs.length := by omega
  rw [pairKeyAt_eq_key db (DBInv_keybound h) i hlen] at hcon
  have hbin := window_bin db idx h b hbE i.toNat (by omega) (by omega)
  rw [hcon] at hbin
  exact hbx hbin

theorem stateOK_main (db : KrakenDB) (idx : KrakenDBIndex)
    (h : DBInvariants db idx) (x : Nat) (st : Nat × Int × Int)
    (hst : StateOK db idx st) :
    (kmer_query_stateful db idx x st).1 = db.kmer_query idx x ∧
    StateOK db idx (kmer_query_stateful db idx x st).2 := by
  rcases st with ⟨b0, mn0, mx0⟩
  rcases hst with hinv | ⟨b, hbE, hstEq⟩
  · rw [kmer_query_stateful_invalid db idx x b0 mn0 mx0 (by simp at hinv ⊢; omega)]
    exact fresh_phase_ok db idx x
  · have hb0 : b0 = b := by
      have := congrArg Prod.fst hstEq
      simpa using this
    have hmn : mn0 = (idx.at b : Int) := by
      have := congrArg (fun s => s.2.1) hstEq
      simpa using this
    have hmx : mx0 = (idx.at (b + 1) : Int) - 1 := by
      have := congrArg (fun s => s.2.2) hstEq
      simpa using this
    subst hb0 hmn hmx
    by_cases hv : (idx.at b0 : Int) ≤ (idx.at (b0 + 1) : Int) - 1
    · rw [kmer_query_stateful_valid db idx x _ _ _ hv]
      by_cases hbx : db.bin_key1 idx x = b0
      · cases hres : hybrid_search db x (idx.at b0) ((idx.at (b0 + 1) : Int) - 1) with
        | some v =>
          rw [searchPhase_hit db idx x _ _ _ v hres]
          constructor
          · rw [kmer_query_eq_NR, kmerQueryNR_def, hbx, hres]
          · exact Or.inr ⟨b0, hbE, rfl⟩
        | none =>
          rw [searchPhase_miss_same db idx x _ _ _ hres hbx]
          constructor
          · rw [kmer_query_eq_NR, kmerQueryNR_def, hbx, hres]
          · exact Or.inr ⟨b0, hbE, rfl⟩
      · have hres := stale_window_misses db idx h x b0 hbE hbx
        rw [searchPhase_miss_diff db idx x _ _ _ hres hbx]
        constructor
        · rw [kmer_query_eq_NR]
        · exact Or.inr ⟨db.bin_key1 idx x, bin_key1_lt db idx x, rfl⟩
    · rw [kmer_query_stateful_invalid db idx x _ _ _ hv]
      exact fresh_phase_ok db idx x

theorem reachable_stateOK (db : KrakenDB) (idx : KrakenDBIndex)
    (h : DBInvariants db idx) (st : Nat × Int × Int)
    (hr : ReachableState db idx st) : StateOK db idx st := by
  induction hr with
  | init st hlt => exact Or.inl hlt
  | step st y _ ih => exact (stateOK_main db idx h y st ih).2

theorem binOffset_eq_sum (db : KrakenDB) (nt : Nat) :
    ∀ i, binOffset db nt i = ∑ b ∈ Finset.range i, binCount db nt b := by
  intro i
  induction i with
  | zero => simp [binOffset]
  | succ i ih => rw [Finset.sum_range_succ, ← ih]; rfl

theorem sum_countP_eq_length (f : Nat → Nat) (E : Nat) :
    ∀ l : List Nat, (∀ x ∈ l, f x < E) →
      (∑ b ∈ Finset.range E, l.countP (fun x => f x == b)) = l.length := by
  intro l
  induction l with
  | nil => simp
  | cons a l ih =>
    intro hall
    simp only [List.countP_cons]
    rw [Finset.sum_add_distrib, ih (fun x hx => hall x (by simp [hx]))]
    have hone : (∑ b ∈ Finset.range E,
        if (f a == b) = true then 1 else 0) = 1 := by
      have hcond : ∀ b : Nat, ((f a == b) = true) = (f a = b) := by
        intro b
        simp
      simp only [hcond]
      rw [Finset.sum_ite_eq (Finset.range E) (f a) (fun _ => 1)]
      simp [Finset.mem_range.mpr (hall a (by simp))]
    rw [hone]
    simp [Nat.add_comm]

theorem key_len_ceil (kb : Nat) :
    kb / 8 + (if kb % 8 = 0 then 0 else 1) = (kb + 7) / 8 := by
  by_cases h : kb % 8 = 0 <;> simp [h] <;> omega

theorem readLE8_congr (b1 b2 : List Nat) (off : Nat)
    (h : ∀ j, j < 56 → b1.getD j 0 = b2.getD j 0) (hoff : off + 8 ≤ 56) :
    readLE8 b1 off = readLE8 b2 off := by
  unfold readLE8
  rw [h off (by omega), h (off + 1) (by omega), h (off + 2) (by omega),
    h (off + 3) (by omega), h (off + 4) (by omega), h (off + 5) (by omega),
    h (off + 6) (by omega), h (off + 7) (by omega)]

theorem magicMatches_congr (b1 b2 : List Nat)
    (h : ∀ j, j < 56 → b1.getD j 0 = b2.getD j 0) :
    magicMatches b1 = magicMatches b2 := by
  unfold magicMatches
  have hr : List.range 8 = [0, 1, 2, 3, 4, 5, 6, 7] := rfl
  rw [hr]
  simp only [List.all_cons, List.all_nil]
  rw [h 0 (by omega), h 1 (by omega), h 2 (by omega), h 3 (by omega),
    h 4 (by omega), h 5 (by omega), h 6 (by omega), h 7 (by omega)]

-- ===== Claim theorems =====

/-- C1: for a database whose pair array satisfies the §3 invariants and whose
bound index delimits the bins, and any k-mer `x < 2^key_bits`, the stateless
`kmer_query` returns the stored value of `x` whenever the pair is present,
and absence whenever `x` is not stored. -/
theorem kmer_query_roundtrip (db : KrakenDB) (idx : KrakenDBIndex)
    (h : DBInvariants db idx) (x : Nat) (hx : x < 2 ^ db.key_bits) :
    (∀ v, (x, v) ∈ db.pairs → db.kmer_query idx x = some v) ∧
    (x ∉ db.pairs.map Prod.fst → db.kmer_query idx x = none) :=
  ⟨fun v hv => query_finds db idx h x v hv, fun hn => query_absent db idx h x hn⟩

theorem kmer_query_roundtrip_witness :
    cdb.kmer_query cidx 27 = some 20 ∧ cdb.kmer_query cidx 170 = none :=
  ⟨(kmer_query_roundtrip cdb cidx (by decide) 27 (by decide)).1 20 (by decide),
   (kmer_query_roundtrip cdb cidx (by decide) 170 (by decide)).2 (by decide)⟩

/-- C2: the stateful `kmer_query(x, &last_bin_key, &min_pos, &max_pos, true)`
returns the same answer as the stateless `kmer_query(x)`, from any initial
state with `min_pos > max_pos` and after any prior sequence of stateful
queries. -/
theorem stateful_query_agrees (db : KrakenDB) (idx : KrakenDBIndex)
    (h : DBInvariants db idx) (x : Nat) (st : Nat × Int × Int)
    (hst : ReachableState db idx st) :
    (kmer_query_stateful db idx x st).1 = db.kmer_query idx x :=
  (stateOK_main db idx h x st (reachable_stateOK db idx h st hst)).1

theorem stateful_query_agrees_witness :
    (kmer_query_stateful cdb cidx 27 (0, 0, -1)).1 = cdb.kmer_query cidx 27 ∧
    (kmer_query_stateful cdb cidx 170
        ((kmer_query_stateful cdb cidx 27 (0, 0, -1)).2)).1 =
      cdb.kmer_query cidx 170 :=
  ⟨stateful_query_agrees cdb cidx (by decide) 27 (0, 0, -1)
      (ReachableState.init _ (by decide)),
   stateful_query_agrees cdb cidx (by decide) 170 _
      (ReachableState.step _ 27 (ReachableState.init (0, 0, -1) (by decide)))⟩

/-- C3: `bin_key` equals the minimum, over the `k - nt + 1` length-`nt`
substrings of the k-mer (the low `2·nt` bits after successive right-shifts
by 2), of `effective_xor XOR canonical(substring, nt)` with
`effective_xor = xor_mask &&& (4^nt - 1)`; instantiating the XOR mask by
`0` (v1) or `INDEX2_XOR_MASK` (v2) gives the two index versions. -/
theorem bin_key_min_substrings (kmer nt k xor_mask : Nat) (h1 : 1 ≤ nt)
    (h2 : nt ≤ 15) (h3 : nt ≤ k) (h4 : k ≤ 32) (hx : kmer < 4 ^ k) :
    bin_key_core kmer nt (2 * k) xor_mask =
      Finset.inf' (Finset.range (k - nt + 1))
        (Finset.nonempty_range_iff.mpr (by omega))
        (fun i => (xor_mask &&& (4 ^ nt - 1)) ^^^
          canonical_representation ((kmer >>> (2 * i)) &&& (4 ^ nt - 1)) nt) :=
  bin_key_core_eq_inf kmer nt k xor_mask h2

theorem bin_key_min_substrings_witness :
    bin_key_core 27 2 (2 * 4) 0 =
      Finset.inf' (Finset.range (4 - 2 + 1))
        (Finset.nonempty_range_iff.mpr (by omega))
        (fun i => (0 &&& (4 ^ 2 - 1)) ^^^
          canonical_representation ((27 >>> (2 * i)) &&& (4 ^ 2 - 1)) 2) ∧
    bin_key_core 27 2 8 0 = 1 :=
  ⟨bin_key_min_substrings 27 2 4 0 (by decide) (by decide) (by decide)
      (by decide) (by decide), by decide⟩

/-- C4: the offset array emitted by `make_index` starts at 0, is monotone
non-decreasing, and ends at `key_ct`. -/
theorem make_index_offsets_spec (db : KrakenDB) (nt : Nat) (h1 : 1 ≤ nt)
    (h2 : nt ≤ 15) (h3 : nt ≤ db.key_bits / 2) :
    binOffset db nt 0 = 0 ∧
    (∀ i, i < 4 ^ nt → binOffset db nt i ≤ binOffset db nt (i + 1)) ∧
    binOffset db nt (4 ^ nt) = db.pairs.length := by
  refine ⟨rfl, fun i _ => ?_, ?_⟩
  · show binOffset db nt i ≤ binOffset db nt i + binCount db nt i
    exact Nat.le_add_right _ _
  · rw [binOffset_eq_sum]
    unfold binCount
    rw [sum_countP_eq_length
      (fun kmer => bin_key_core kmer nt db.key_bits INDEX2_XOR_MASK) (4 ^ nt)
      (db.pairs.map Prod.fst) (fun x _ => bin_key_core_lt x nt db.key_bits _)]
    exact List.length_map _ _

theorem make_index_offsets_spec_witness :
    binOffset cdb 2 0 = 0 ∧ binOffset cdb 2 16 = cdb.pairs.length :=
  ⟨(make_index_offsets_spec cdb 2 (by decide) (by decide) (by decide)).1,
   (make_index_offsets_spec cdb 2 (by decide) (by decide) (by decide)).2.2⟩

/-- C5: `reverse_complement` is an involution on k-mers of `n ∈ [1,32]`
nucleotides packed in the low `2n` bits. -/
theorem reverse_complement_involutive (n x : Nat) (h1 : 1 ≤ n) (h2 : n ≤ 32)
    (hx : x < 2 ^ (2 * n)) :
    reverse_complement (reverse_complement x n) n = x :=
  reverse_complement_invol n x h2 hx

theorem reverse_complement_involutive_witness :
    reverse_complement (reverse_complement 13909 8) 8 = 13909 :=
  reverse_complement_involutive 8 13909 (by decide) (by decide) (by decide)

/-- C6: `canonical_representation` is the unsigned minimum of a k-mer and
its reverse complement, and is invariant under reverse complement. -/
theorem canonical_representation_spec (n x : Nat) (h1 : 1 ≤ n) (h2 : n ≤ 32)
    (hx : x < 2 ^ (2 * n)) :
    canonical_representation x n = min x (reverse_complement x n) ∧
    canonical_representation (reverse_complement x n) n =
      canonical_representation x n := by
  refine ⟨canonical_representation_eq_min x n, ?_⟩
  rw [canonical_representation_eq_min, canonical_representation_eq_min,
    reverse_complement_invol n x h2 hx]
  exact Nat.min_comm _ _

theorem canonical_representation_spec_witness :
    canonical_representation 255 4 = min 255 (reverse_complement 255 4) ∧
    canonical_representation (reverse_complement 255 4) 4 =
      canonical_representation 255 4 :=
  canonical_representation_spec 4 255 (by decide) (by decide) (by decide)

/-- C7: the claim says the `TESTING` guard of `KrakenDBIndex::at` fails
exactly when `i > 4^nt`; but the code's guard is `i > 1 + (1ull << (nt*2))`,
so the out-of-range index `i = 4^nt + 1` (here `17` with `nt = 2`) slips
through the guard and the C code reads one entry past the
`(4^nt)+1`-element offset array instead of failing. -/
theorem at_testing_guard_off_by_one :
    cidx.at_testing 17 = some (cidx.arr.getD 17 0) ∧ 4 ^ cidx.nt < 17 := by
  decide

/-- C8 counterexample: the claim says open "derives k = key_bits/2", but
`k` is a `uint8_t` in the source, so the assignment `k = key_bits / 2`
narrows mod 256.  A well-formed header with `key_bits = 512` (magic
intact, `val_len = 4`) opens successfully with `k = 0 ≠ 256 = key_bits/2`. -/
theorem kdb_open_k_wraps :
    kdb_open wrapBytes = some ⟨512, 4, 1, 0, 64⟩ ∧
    ¬ (⟨512, 4, 1, 0, 64⟩ : KrakenDBFields).k =
        (⟨512, 4, 1, 0, 64⟩ : KrakenDBFields).key_bits / 2 := by
  decide

/-- C8 (amended): opening a database fails exactly on a bad magic or
`val_len ≠ 4`; on success it derives `k = (key_bits/2) mod 256` (the
`uint8_t` narrowing of `key_bits / 2`) and `key_len = ⌈key_bits/8⌉`;
it depends only on the first 56 header bytes (so it never reads the pair
array), and the query path cannot produce an error — it is total into
`Option`. -/
theorem kdb_open_spec (bytes : List Nat) :
    (kdb_open bytes = none ↔
      magicMatches bytes = false ∨ readLE8 bytes 16 ≠ 4) ∧
    (∀ flds, kdb_open bytes = some flds →
      flds.k = flds.key_bits / 2 % 256 ∧
      flds.key_len = (flds.key_bits + 7) / 8 ∧
      flds.val_len = 4) ∧
    (∀ bytes2, (∀ j, j < 56 → bytes.getD j 0 = bytes2.getD j 0) →
      kdb_open bytes = kdb_open bytes2) ∧
    (∀ (db : KrakenDB) (idx : KrakenDBIndex) (kmer : Nat),
      db.kmer_query idx kmer = none ∨ ∃ v, db.kmer_query idx kmer = some v) := by
  refine ⟨?_, ?_, ?_, ?_⟩
  · unfold kdb_open
    by_cases hm : magicMatches bytes
    · by_cases hv : readLE8 bytes 16 = 4 <;> simp [hm, hv]
    · simp [hm]
  · intro flds heq
    unfold kdb_open at heq
    by_cases hm : magicMatches bytes
    · by_cases hv : readLE8 bytes 16 = 4
      · simp only [hm, if_true, hv, if_pos] at heq
        rw [← Option.some_inj.mp heq]
        refine ⟨rfl, ?_, rfl⟩
        exact key_len_ceil _
      · simp [hm, hv] at heq
    · simp [hm] at heq
  · intro bytes2 hagree
    unfold kdb_open
    rw [magicMatches_congr bytes bytes2 hagree,
      readLE8_congr bytes bytes2 8 hagree (by omega),
      readLE8_congr bytes bytes2 16 hagree (by omega),
      readLE8_congr bytes bytes2 48 hagree (by omega)]
  · intro db idx kmer
    cases hq : db.kmer_query idx kmer with
    | none => exact Or.inl rfl
    | some v => exact Or.inr ⟨v, rfl⟩

theorem kdb_open_spec_witness :
    kdb_open goodBytes = some ⟨8, 4, 3, 4, 1⟩ ∧
    ((⟨8, 4, 3, 4, 1⟩ : KrakenDBFields).k = 8 / 2 % 256 ∧
      (⟨8, 4, 3, 4, 1⟩ : KrakenDBFields).key_len = (8 + 7) / 8 ∧
      (⟨8, 4, 3, 4, 1⟩ : KrakenDBFields).val_len = 4) ∧
    kdb_open goodBytes = kdb_open (goodBytes ++ [9, 9]) :=
  ⟨by decide,
   (kdb_open_spec goodBytes).2.1 ⟨8, 4, 3, 4, 1⟩ (by decide),
   (kdb_open_spec goodBytes).2.2.1 (goodBytes ++ [9, 9]) (by decide)⟩

/-- C9: for `nt ∈ [1,15]` with `nt ≤ key_bits/2` and any 64-bit k-mer,
`bin_key` is below `4^nt` (for any XOR mask, hence for both the
`make_index` histogram update and the query-path `at(b)`/`at(b+1)` reads:
both indices stay within the `(4^nt)+1`-entry offset array). -/
theorem bin_key_in_range (kmer nt key_bits xor_mask : Nat) (h1 : 1 ≤ nt)
    (h2 : nt ≤ 15) (h3 : nt ≤ key_bits / 2) (hk : kmer < 2 ^ 64) :
    bin_key_core kmer nt key_bits xor_mask < 4 ^ nt ∧
    bin_key_core kmer nt key_bits xor_mask + 1 ≤ 4 ^ nt := by
  have h := bin_key_core_lt kmer nt key_bits xor_mask
  exact ⟨h, h⟩

theorem bin_key_in_range_witness :
    bin_key_core 27 2 8 INDEX2_XOR_MASK < 4 ^ 2 ∧
    bin_key_core 27 2 8 INDEX2_XOR_MASK + 1 ≤ 4 ^ 2 :=
  bin_key_in_range 27 2 8 INDEX2_XOR_MASK (by decide) (by decide) (by decide)
    (by decide)

/-- C10: with `retry_on_failure = false`, `kmer_query` neither reads nor
writes its three pointer parameters (the modelled call succeeds with the
pointer cells unchanged, for any values including NULL), and its answer is
the pointer-free search `kmerQueryNR`; hence the stateless
`kmer_query(kmer)`, which passes NULL three times, is well defined. -/
theorem kmer_query_no_retry_ignores_pointers (db : KrakenDB)
    (idx : KrakenDBIndex) (kmer : Nat) (last_bin_key : Option Nat)
    (min_pos max_pos : Option Int) :
    kmerQueryRaw db idx kmer last_bin_key min_pos max_pos false =
      some (kmerQueryNR db idx kmer, last_bin_key, min_pos, max_pos) ∧
    db.kmer_query idx kmer = kmerQueryNR db idx kmer :=
  ⟨by simp [kmerQueryRaw], kmer_query_eq_NR db idx kmer⟩
